import Mathlib

/-!
Verification of the model-construction layer in spacy/_ml.py.

Each Python function the claims touch is embedded as a Lean definition:
array entries become exact numbers (integers or rationals; reals where the
source takes a square root), numpy arrays become functions out of Fin, and
Python control flow becomes Lean control flow.  The theorems at the end of
the file settle the frozen claims against these definitions.
-/

set_option autoImplicit false

namespace SpacyML

/-! ### Masked-language-model wrapper (_ml.py lines 682-755) -/

/-- Embedding of the mask drawn inside _apply_mask (line 725-726):
one uniform draw per token, and mask[i] = (draw i >= mask_prob), i.e.
mask[i] = true means token i is kept uncorrupted. -/
def applyMaskKeep (N : ℕ) (maskProb : ℚ) (draws : Fin N → ℚ) : Fin N → Bool :=
  fun i => decide (maskProb ≤ draws i)

/-- Embedding of the gradient scaling in mlm_backward (line 693):
d_output *= 1 - mask, where the boolean mask has been cast to a float
column of shape (N, 1) (line 689) and is broadcast across the gradient
columns. -/
def mlmScaleGrad (N d : ℕ) (mask : Fin N → Bool) (dOut : Fin N → Fin d → ℚ) :
    Fin N → Fin d → ℚ :=
  fun i j => (1 - (if mask i then (1 : ℚ) else 0)) * dOut i j

/-- Embedding of mlm_backward (lines 692-694): scale the incoming gradient
by (1 - mask) and then delegate to the wrapped model's backward function. -/
def mlmBackward {α : Type} (N d : ℕ) (backprop : (Fin N → Fin d → ℚ) → α)
    (mask : Fin N → Bool) (dOut : Fin N → Fin d → ℚ) : α :=
  backprop (mlmScaleGrad N d mask dOut)

/-- Embedding of _replace_word (lines 748-755): roll below 0.8 gives the
literal marker, roll in [0.8, 0.9) gives the sampled random word, any other
roll returns the original word. -/
def replaceWord (roll : ℚ) (word sampled : String) : String :=
  if roll < 8/10 then "[MASK]"
  else if roll < 9/10 then sampled
  else word

/-! ### PrecomputableAffine (_ml.py lines 171-224)

The layer's weight tensor W has shape (nF, nO, nP, nI), the learned pad
parameter has shape (1, nF, nO, nP); both are embedded as curried functions.
begin_update reshapes W to (nF*nO*nP, nI), multiplies X (batch, nI) against
its transpose and reshapes back, so entry (b, f, o, p) of the product is
the inner product of row b of X with W[f, o, p, :]. -/

/-- Embedding of the gemm + reshape in begin_update (lines 180-183):
Yf[b, f, o, p] = sum over i of X[b, i] * W[f, o, p, i]. -/
def paYf (batch nI nF nO nP : ℕ) (W : Fin nF → Fin nO → Fin nP → Fin nI → ℤ)
    (X : Fin batch → Fin nI → ℤ) : Fin batch → Fin nF → Fin nO → Fin nP → ℤ :=
  fun b f o p => ∑ i, X b i * W f o p i

/-- Embedding of _add_padding (lines 214-216): vstack((pad, Yf)) prepends
the single pad row, giving shape (batch+1, nF, nO, nP): row 0 is the pad
parameter, row b+1 is row b of Yf. -/
def paAddPadding (batch nF nO nP : ℕ) (padp : Fin nF → Fin nO → Fin nP → ℤ)
    (Yf : Fin batch → Fin nF → Fin nO → Fin nP → ℤ) :
    Fin (batch + 1) → Fin nF → Fin nO → Fin nP → ℤ :=
  fun r => Fin.cases padp Yf r

/-- Embedding of the forward part of begin_update (lines 179-184):
the gemm output with the pad row prepended. -/
def paBeginUpdate (batch nI nF nO nP : ℕ)
    (W : Fin nF → Fin nO → Fin nP → Fin nI → ℤ)
    (padp : Fin nF → Fin nO → Fin nP → ℤ) (X : Fin batch → Fin nI → ℤ) :
    Fin (batch + 1) → Fin nF → Fin nO → Fin nP → ℤ :=
  paAddPadding batch nF nO nP padp (paYf batch nI nF nO nP W X)

/-- Embedding of mask.sum(axis=1) in _backprop_padding (lines 220-221):
the number of negative entries in row n of ids. -/
def paPadCount (nN nF : ℕ) (ids : Fin nN → Fin nF → ℤ) (n : Fin nN) : ℕ :=
  (Finset.univ.filter (fun f => ids n f < 0)).card

/-- Embedding of the pad-gradient increment in _backprop_padding (lines
218-223).  The upstream gradient dY has shape (nN, nO, nP) — the shape the
in-place bias update d_b += dY.sum(axis=0) on line 192 forces, the comment
on line 219 notwithstanding — so d_pad = dY * mask.reshape((nN, 1, 1)) is
the per-row scaling of dY by the count of negative ids in that row, and
d_pad.sum(axis=0), of shape (nO, nP), is broadcast over the feature axis
of the (1, nF, nO, nP) accumulator: every feature slot f receives the same
(nO, nP) increment, which is why the result below ignores f. -/
def paDPadIncrement (nN nF nO nP : ℕ) (ids : Fin nN → Fin nF → ℤ)
    (dY : Fin nN → Fin nO → Fin nP → ℤ) : Fin nF → Fin nO → Fin nP → ℤ :=
  fun _f o p => ∑ n, (paPadCount nN nF ids n : ℤ) * dY n o p

/-! ### Vocabulary data model and link_vectors_to_models (lines 283-301) -/

/-- Lexeme as the host toolkit exposes it to this file: an identifier
(orth), a text form, a smoothed log-probability and a mutable rank. -/
structure Lexeme where
  orth : ℕ
  text : String
  prob : ℚ
  rank : ℕ
deriving DecidableEq

/-- Vector table of a vocabulary: an optional name, an identifier-to-row
mapping, and the number of entries in the dense data matrix. -/
structure VectorTable where
  name : Option String
  key2row : ℕ → Option ℕ
  dataSize : ℕ

/-- Vocabulary: a list of lexemes plus a vector table. -/
structure Vocab where
  lexemes : List Lexeme
  vectors : VectorTable

/-- The fixed constant key of _ml.py line 36. -/
def VECTORS_KEY : String := "spacy_pretrained_vectors"

/-- Embedding of link_vectors_to_models (lines 283-301): assign the fixed
key as the vector table's name only when the name is unset (lines 285-286,
the diagnostic print on lines 287-291 is side-effect only), and set each
lexeme's rank to the row mapped to its identifier, or 0 when the identifier
is absent from key2row (lines 293-297).  The registry write on line 301 is
an external side effect outside this model. -/
def link_vectors_to_models (v : Vocab) : Vocab :=
  { lexemes := v.lexemes.map (fun lex =>
      match v.vectors.key2row lex.orth with
      | some row => { lex with rank := row }
      | none => { lex with rank := 0 }),
    vectors := { v.vectors with
      name := if v.vectors.name = none then some VECTORS_KEY else v.vectors.name } }

/-! ### get_col (lines 411-429) -/

/-- Modelled from the spec: the shared error catalog's message for a
negative column index (the errors module is not under src), formatted with
the offending value. -/
def errorsE066 (value : ℤ) : String :=
  "can not get a negative column value: " ++ toString value

/-- Embedding of the guard in get_col (lines 412-413): a negative index
raises an IndexError carrying the catalog message; a non-negative index
yields the usable column index. -/
def get_col (idx : ℤ) : Except String ℕ :=
  if idx < 0 then Except.error (errorsE066 idx) else Except.ok idx.toNat

/-- Embedding of get_col's forward (lines 415-420): extract column j of
the 2-D array X. -/
def getColForward (m n : ℕ) (j : Fin n) (X : Fin m → Fin n → ℤ) : Fin m → ℤ :=
  fun i => X i j

/-- Embedding of get_col's backward (lines 422-425): a zero-allocated
array of X's shape with the incoming gradient y added into column j. -/
def getColBackward (m n : ℕ) (j : Fin n) (y : Fin m → ℤ) : Fin m → Fin n → ℤ :=
  fun i k => if k = j then y i else 0

/-! ### concatenate_lists (lines 656-679) -/

/-- A layer at the granularity claim C10 needs: forward maps an input to
an output and a backward function. -/
structure SimpleLayer (α : Type) where
  forward : α → α × (α → α)

/-- Modelled from the spec: the external framework's noop layer, an
identity pass-through (the spec describes noop as yielding an identity
pass-through); forward returns its input unchanged with an identity
backward. -/
def noopLayer (α : Type) : SimpleLayer α :=
  ⟨fun X => (X, fun d => d)⟩

/-- Embedding of concatenate_lists (lines 656-679) at the granularity C10
needs: with zero layer arguments it returns noop() (lines 660-661); with
at least one layer the construction on lines 662-679 runs, abstracted here
as the parameter general because its semantics rests entirely on external
combinators the empty case never reaches. -/
def concatenateLists {α β : Type} (general : List β → SimpleLayer α) :
    List β → SimpleLayer α
  | [] => noopLayer α
  | l :: ls => general (l :: ls)

/-! ### flatten / _flatten_add_lengths (lines 62-71 and 644-653)

The concatenation and splitting themselves live in the external framework
(ops.flatten / ops.unflatten); the spec describes them at the boundary:
flatten concatenates a batch of variable-length sequences into one
contiguous array, optionally pad-delimited, and unflatten cuts a flat
array back into per-sequence pieces using the recorded lengths and the
same pad width.  Sequence entries are embedded as integers; a sequence is
a List ℤ and the pad delimiter is a run of pad zero entries around each
sequence. -/

/-- Modelled from the spec: the external framework's ops.flatten —
concatenate the sequences, writing a pad-wide run of zeros before each
sequence and one after the last (for pad = 0 this is plain
concatenation). -/
def opsFlatten (pad : ℕ) : List (List ℤ) → List ℤ
  | [] => List.replicate pad 0
  | s :: ss => List.replicate pad 0 ++ s ++ opsFlatten pad ss

/-- Modelled from the spec: the external framework's ops.unflatten — for
each recorded length, skip the pad delimiter, cut off that many entries as
the next sequence, and continue on the remainder. -/
def opsUnflatten (pad : ℕ) : List ℕ → List ℤ → List (List ℤ)
  | [], _ => []
  | l :: ls, X => (X.drop pad).take l :: opsUnflatten pad ls ((X.drop pad).drop l)

/-- Embedding of the length recording shared by flatten (line 647) and
_flatten_add_lengths (line 65). -/
def flattenLengths (seqs : List (List ℤ)) : List ℕ :=
  seqs.map List.length

/-- Embedding of the flatten layer's forward (line 652): ops.flatten with
pad 0. -/
def flattenLayerForward (seqs : List (List ℤ)) : List ℤ :=
  opsFlatten 0 seqs

/-- Embedding of _flatten_add_lengths' forward (lines 63-71): the
flattened array paired with the recorded lengths. -/
def flattenAddLengthsForward (pad : ℕ) (seqs : List (List ℤ)) : List ℤ × List ℕ :=
  (opsFlatten pad seqs, flattenLengths seqs)

/-- Embedding of the backward recorded by both layers (lines 67-68 and
649-650): ops.unflatten of the flat gradient with the recorded lengths and
the forward-time pad width (0 for the flatten layer). -/
def flattenAddLengthsBackward (pad : ℕ) (seqs : List (List ℤ)) (dX : List ℤ) :
    List (List ℤ) :=
  opsUnflatten pad (flattenLengths seqs) dX

/-! ### _RandomWords (lines 701-717) -/

/-- Embedding of the word list built in _RandomWords.__init__ (lines 703
and 705): the texts of the lexemes with nonzero smoothed probability, in
order, truncated to the first 10000. -/
def rwWords (vocab : List Lexeme) : List String :=
  ((vocab.filter (fun lex => lex.prob ≠ 0)).map Lexeme.text).take 10000

/-- Embedding of the probability list built on lines 704 and 706: the
smoothed probabilities of the same lexemes, truncated to the first
10000. -/
def rwProbRaw (vocab : List Lexeme) : List ℚ :=
  ((vocab.filter (fun lex => lex.prob ≠ 0)).map Lexeme.prob).take 10000

/-- Embedding of lines 707-708: numpy.exp is applied entrywise — the
exponential is embedded as a parameter expf, about which the theorems
assume only strict positivity, which the real exponential satisfies — and
the result is divided by its own total. -/
def rwProbStored (expf : ℚ → ℚ) (vocab : List Lexeme) : List ℚ :=
  ((rwProbRaw vocab).map expf).map (fun x => x / ((rwProbRaw vocab).map expf).sum)

/-- State of a _RandomWords instance: the precomputed word list, the
refillable cache of pre-drawn indices (line 709), and a count of refills
performed so far, standing for the state of the random generator. -/
structure RWState where
  words : List String
  cache : List ℕ
  rng : ℕ

/-- Embedding of _RandomWords.next (lines 711-717): when the cache is
empty it is first extended with a fresh batch of drawn indices — modelled
by the stream refillF, one batch per refill event, as numpy.random.choice
draws a batch of indices below the word count — then one index is popped
from the end of the cache (Python list.pop) and the word at that index is
returned.  Python raises where the pop or the indexing would fail; those
cases become none.  rwPop is the common tail of both branches: pop the
last index off the cache c and look the word up. -/
def rwPop (words : List String) (c : List ℕ) (rng : ℕ) : Option (String × RWState) :=
  match c.getLast? with
  | none => none
  | some idx =>
    match words[idx]? with
    | none => none
    | some w => some (w, ⟨words, c.dropLast, rng⟩)

/-- Continued embedding of _RandomWords.next: dispatch on whether the
cache needs refilling before popping. -/
def rwNext (refillF : ℕ → List ℕ) (s : RWState) : Option (String × RWState) :=
  if s.cache.isEmpty then rwPop s.words (refillF s.rng) (s.rng + 1)
  else rwPop s.words s.cache s.rng

/-- A freshly constructed _RandomWords instance: the truncated word list
and an empty cache (lines 702-709). -/
def rwInit (vocab : List Lexeme) : RWState :=
  ⟨rwWords vocab, [], 0⟩

/-- A run of k successive .next() calls, collecting the returned words;
none as soon as any call raises. -/
def rwRun (refillF : ℕ → List ℕ) : ℕ → RWState → Option (List String × RWState)
  | 0, s => some ([], s)
  | k + 1, s =>
    match rwNext refillF s with
    | none => none
    | some (w, s2) =>
      match rwRun refillF k s2 with
      | none => none
      | some (ws, sf) => some (w :: ws, sf)

/-- Invariant of a _RandomWords state: the word list is the precomputed
one and every cached index is in range. -/
def rwInv (vocab : List Lexeme) (s : RWState) : Prop :=
  s.words = rwWords vocab ∧ ∀ i ∈ s.cache, i < (rwWords vocab).length

/-! ### cosine (lines 39-46) -/

/-- Embedding of the norms taken on lines 41-42: numpy's default 2-norm of
a 1-D array, the real square root of the sum of squares. -/
noncomputable def normL2 (n : ℕ) (v : Fin n → ℝ) : ℝ :=
  Real.sqrt (∑ i, v i ^ 2)

/-- Embedding of cosine (lines 39-46): 0 when either vector's norm is
exactly 0 (lines 43-44), otherwise the dot product divided by the product
of the norms (line 46). -/
noncomputable def cosine (n : ℕ) (vec1 vec2 : Fin n → ℝ) : ℝ :=
  if normL2 n vec1 = 0 ∨ normL2 n vec2 = 0 then 0
  else (∑ i, vec1 i * vec2 i) / (normL2 n vec1 * normL2 n vec2)

/-! ### Helper lemmas about the flatten/unflatten pair -/

lemma opsFlatten_length (pad : ℕ) (seqs : List (List ℤ)) :
    (opsFlatten pad seqs).length = pad * (seqs.length + 1) + (flattenLengths seqs).sum := by
  induction seqs with
  | nil => simp [opsFlatten, flattenLengths]
  | cons s ss ih =>
    simp only [opsFlatten, flattenLengths, List.length_append, List.length_replicate,
      List.length_cons, List.map_cons, List.sum_cons, Nat.mul_add, Nat.mul_one] at *
    omega

lemma drop_replicate_append (n : ℕ) (t : List ℤ) :
    ((List.replicate n (0 : ℤ)) ++ t).drop n = t := by
  have h := List.drop_left (List.replicate n (0 : ℤ)) t
  rw [List.length_replicate] at h
  exact h

lemma opsUnflatten_shapes (pad : ℕ) :
    ∀ (ls : List ℕ) (X : List ℤ), pad * ls.length + ls.sum ≤ X.length →
      (opsUnflatten pad ls X).map List.length = ls := by
  intro ls
  induction ls with
  | nil => intro X _; rfl
  | cons l ls ih =>
    intro X hX
    simp only [List.length_cons, List.sum_cons, Nat.mul_add, Nat.mul_one] at hX
    have h1 : ((X.drop pad).take l).length = l := by
      simp only [List.length_take, List.length_drop]
      omega
    have h2 : pad * ls.length + ls.sum ≤ ((X.drop pad).drop l).length := by
      simp only [List.length_drop]
      omega
    simp only [opsUnflatten, List.map_cons, h1, ih _ h2]

lemma opsUnflatten_opsFlatten (pad : ℕ) (seqs : List (List ℤ)) :
    opsUnflatten pad (flattenLengths seqs) (opsFlatten pad seqs) = seqs := by
  induction seqs with
  | nil => rfl
  | cons s ss ih =>
    simp only [flattenLengths, List.map_cons] at *
    simp only [opsFlatten, opsUnflatten]
    rw [List.append_assoc, drop_replicate_append, List.take_left, List.drop_left, ih]

/-! ### Theorems for claims C1 and C2 -/

/-- C1: at every slot of the pad-gradient accumulator, the increment added
by _backprop_padding equals the sum, over exactly the positions (n, f)
whose index entry ids[n, f] is negative (the pad-sentinel positions), of
the incoming gradient of row n — and nothing else contributes. -/
theorem backprop_padding_increment (nN nF nO nP : ℕ) (ids : Fin nN → Fin nF → ℤ)
    (dY : Fin nN → Fin nO → Fin nP → ℤ) (f : Fin nF) (o : Fin nO) (p : Fin nP) :
    paDPadIncrement nN nF nO nP ids dY f o p =
      ∑ n, ∑ f2, (if ids n f2 < 0 then dY n o p else 0) := by
  unfold paDPadIncrement
  refine Finset.sum_congr rfl (fun n _ => ?_)
  rw [← Finset.sum_filter, Finset.sum_const, nsmul_eq_mul]
  rfl

/-- C2: the forward pass output has exactly batch+1 rows (the result's row
index ranges over Fin (batch+1)); row 0 equals the learned pad parameter
and row b+1 is the reshaped product of X with W. -/
theorem begin_update_forward_rows (batch nI nF nO nP : ℕ)
    (W : Fin nF → Fin nO → Fin nP → Fin nI → ℤ)
    (padp : Fin nF → Fin nO → Fin nP → ℤ) (X : Fin batch → Fin nI → ℤ) :
    (∀ f o p, paBeginUpdate batch nI nF nO nP W padp X 0 f o p = padp f o p) ∧
    (∀ (b : Fin batch) (f : Fin nF) (o : Fin nO) (p : Fin nP),
      paBeginUpdate batch nI nF nO nP W padp X b.succ f o p =
        ∑ i, X b i * W f o p i) := by
  constructor
  · intro f o p
    simp [paBeginUpdate, paAddPadding]
  · intro b f o p
    simp [paBeginUpdate, paAddPadding, paYf]

/-! ### Theorems for claims C6, C8 and C10 -/

/-- C6: after link_vectors_to_models, every lexeme's rank is the row mapped
to its identifier in key2row, or 0 when absent; the key2row mapping itself
is unchanged; a name that was already set is kept, an unset name becomes
the fixed constant key, and hence re-running the linking never changes the
name again. -/
theorem link_vectors_to_models_spec (v : Vocab) :
    (∀ lex ∈ (link_vectors_to_models v).lexemes,
      lex.rank = ((link_vectors_to_models v).vectors.key2row lex.orth).getD 0) ∧
    (link_vectors_to_models v).vectors.key2row = v.vectors.key2row ∧
    (∀ s, v.vectors.name = some s →
      (link_vectors_to_models v).vectors.name = some s) ∧
    (v.vectors.name = none →
      (link_vectors_to_models v).vectors.name = some VECTORS_KEY) ∧
    (link_vectors_to_models (link_vectors_to_models v)).vectors.name =
      (link_vectors_to_models v).vectors.name := by
  refine ⟨?_, rfl, ?_, ?_, ?_⟩
  · intro lex hlex
    simp only [link_vectors_to_models, List.mem_map] at hlex
    obtain ⟨l0, _, rfl⟩ := hlex
    cases h : v.vectors.key2row l0.orth <;> simp [link_vectors_to_models, h]
  · intro s hs
    simp [link_vectors_to_models, hs]
  · intro hs
    simp [link_vectors_to_models, hs]
  · cases h : v.vectors.name <;> simp [link_vectors_to_models, h]

/-- Witness for C6 at a concrete vocabulary: one lexeme whose identifier 5
maps to row 7, one whose identifier 9 is absent, with the name already set
to a non-default string that linking preserves. -/
theorem link_vectors_to_models_spec_w :
    (link_vectors_to_models
      ⟨[⟨5, "a", 1, 0⟩, ⟨9, "b", 1, 3⟩],
       ⟨some "glove", fun k => if k = 5 then some 7 else none, 2⟩⟩).vectors.name
      = some "glove" ∧
    (link_vectors_to_models
      ⟨[⟨5, "a", 1, 0⟩, ⟨9, "b", 1, 3⟩],
       ⟨some "glove", fun k => if k = 5 then some 7 else none, 2⟩⟩).lexemes
      = [⟨5, "a", 1, 7⟩, ⟨9, "b", 1, 0⟩] :=
  ⟨(link_vectors_to_models_spec
      ⟨[⟨5, "a", 1, 0⟩, ⟨9, "b", 1, 3⟩],
       ⟨some "glove", fun k => if k = 5 then some 7 else none, 2⟩⟩).2.2.1 "glove" rfl,
   by simp [link_vectors_to_models]⟩

/-- C8: get_col fails with the catalog's indexing error exactly when the
requested index is negative; for a non-negative index it yields that index,
its forward extracts that column of the input, and its backward scatters
the incoming gradient into a zero array at that column and nowhere else. -/
theorem get_col_spec (idx : ℤ) :
    ((∃ msg, get_col idx = Except.error msg) ↔ idx < 0) ∧
    (idx < 0 → get_col idx = Except.error (errorsE066 idx)) ∧
    (0 ≤ idx → get_col idx = Except.ok idx.toNat) ∧
    (∀ m n (j : Fin n) (X : Fin m → Fin n → ℤ) (i : Fin m),
      j.val = idx.toNat → getColForward m n j X i = X i j) ∧
    (∀ m n (j : Fin n) (y : Fin m → ℤ) (i : Fin m) (k : Fin n),
      j.val = idx.toNat →
        (k = j → getColBackward m n j y i k = y i) ∧
        (k ≠ j → getColBackward m n j y i k = 0)) := by
  refine ⟨?_, ?_, ?_, ?_, ?_⟩
  · constructor
    · rintro ⟨msg, hmsg⟩
      by_contra h
      simp [get_col, h] at hmsg
    · intro h
      exact ⟨errorsE066 idx, by simp [get_col, h]⟩
  · intro h
    simp [get_col, h]
  · intro h
    simp [get_col, not_lt.mpr h]
  · intro m n j X i _
    rfl
  · intro m n j y i k _
    exact ⟨fun hk => by simp [getColBackward, hk], fun hk => by simp [getColBackward, hk]⟩

/-- Witness for C8 at concrete inputs: index -1 errors, index 2 succeeds,
and the backward for column 2 of a 1-by-3 array holds the gradient in
column 2 and zero in column 0. -/
theorem get_col_spec_w :
    get_col (-1) = Except.error (errorsE066 (-1)) ∧
    get_col 2 = Except.ok 2 ∧
    getColBackward 1 3 2 (fun _ => 5) 0 2 = 5 ∧
    getColBackward 1 3 2 (fun _ => 5) 0 0 = 0 :=
  ⟨(get_col_spec (-1)).2.1 (by norm_num),
   (get_col_spec 2).2.2.1 (by norm_num),
   ((get_col_spec 2).2.2.2.2 1 3 2 (fun _ => 5) 0 2 (by decide)).1 (by decide),
   ((get_col_spec 2).2.2.2.2 1 3 2 (fun _ => 5) 0 0 (by decide)).2 (by decide)⟩

/-- C10: concatenate_lists called with zero layer arguments returns the
identity (noop) layer: its forward output equals its input and its backward
returns the incoming gradient unchanged, for every choice of the general
non-empty-case construction. -/
theorem concatenate_lists_empty_identity {α β : Type}
    (general : List β → SimpleLayer α) (X d : α) :
    ((concatenateLists general ([] : List β)).forward X).1 = X ∧
    ((concatenateLists general ([] : List β)).forward X).2 d = d :=
  ⟨rfl, rfl⟩

/-! ### Theorems for claims C5, C7 and C9 -/


lemma rwPop_spec (words : List String) (c : List ℕ) (rng : ℕ)
    (hcne : c ≠ []) (hcin : ∀ i ∈ c, i < words.length) :
    ∃ w s2, rwPop words c rng = some (w, s2) ∧ w ∈ words ∧
      s2.words = words ∧ ∀ i ∈ s2.cache, i < words.length := by
  obtain ⟨idx, hidx⟩ : ∃ idx, c.getLast? = some idx := by
    cases h : c.getLast? with
    | none => exact absurd (List.getLast?_eq_none_iff.mp h) hcne
    | some a => exact ⟨a, rfl⟩
  have hmem : idx ∈ c := by
    obtain ⟨ys, hys⟩ := List.getLast?_eq_some_iff.mp hidx
    subst hys
    simp
  have hlt : idx < words.length := hcin idx hmem
  have hget : words[idx]? = some words[idx] := List.getElem?_eq_getElem hlt
  refine ⟨words[idx], ⟨words, c.dropLast, rng⟩, ?_, ?_, rfl, ?_⟩
  · simp [rwPop, hidx, hget]
  · exact List.getElem_mem hlt
  · intro i hi
    exact hcin i (List.mem_of_mem_dropLast hi)

lemma rwNext_step (vocab : List Lexeme) (refillF : ℕ → List ℕ)
    (hrefill : ∀ r, refillF r ≠ [] ∧ ∀ i ∈ refillF r, i < (rwWords vocab).length)
    (s : RWState) (hs : rwInv vocab s) :
    ∃ w s2, rwNext refillF s = some (w, s2) ∧ w ∈ rwWords vocab ∧ rwInv vocab s2 := by
  obtain ⟨hw, hc⟩ := hs
  by_cases h : s.cache.isEmpty
  · obtain ⟨w, s2, h1, h2, h3, h4⟩ :=
      rwPop_spec s.words (refillF s.rng) (s.rng + 1) (hrefill s.rng).1
        (by rw [hw]; exact (hrefill s.rng).2)
    exact ⟨w, s2, by simp [rwNext, h, h1], hw ▸ h2,
      h3.trans hw, fun i hi => hw ▸ h4 i hi⟩
  · have hcne : s.cache ≠ [] := by
      intro hnil
      exact h (by simp [hnil])
    obtain ⟨w, s2, h1, h2, h3, h4⟩ :=
      rwPop_spec s.words s.cache s.rng hcne (by rw [hw]; exact hc)
    exact ⟨w, s2, by simp [rwNext, h, h1], hw ▸ h2,
      h3.trans hw, fun i hi => hw ▸ h4 i hi⟩

lemma rwRun_spec (vocab : List Lexeme) (refillF : ℕ → List ℕ)
    (hrefill : ∀ r, refillF r ≠ [] ∧ ∀ i ∈ refillF r, i < (rwWords vocab).length) :
    ∀ (k : ℕ) (s : RWState), rwInv vocab s →
      ∃ ws sf, rwRun refillF k s = some (ws, sf) ∧
        (∀ w ∈ ws, w ∈ rwWords vocab) ∧ rwInv vocab sf := by
  intro k
  induction k with
  | zero =>
    intro s hs
    exact ⟨[], s, rfl, by simp, hs⟩
  | succ k ih =>
    intro s hs
    obtain ⟨w, s2, h1, h2, h3⟩ := rwNext_step vocab refillF hrefill s hs
    obtain ⟨ws, sf, h4, h5, h6⟩ := ih s2 h3
    refine ⟨w :: ws, sf, by simp [rwRun, h1, h4], ?_, h6⟩
    intro x hx
    rcases List.mem_cons.mp hx with h | h
    · exact h ▸ h2
    · exact h5 x h

/-- C5 (amended): for every vocabulary holding at least one lexeme of
nonzero smoothed probability, the fresh _RandomWords instance holds at most
10000 words, every held word comes from a lexeme of nonzero probability,
the stored sampling probabilities sum to 1 over the truncated list, and
every run of .next() calls — of any length, so also beyond 10000,
the cache refilling transparently — succeeds and only ever returns words
of the precomputed list.  The entrywise exponential is any strictly
positive function expf; each refill batch is nonempty with in-range
indices, as numpy.random.choice guarantees on a nonempty word list. -/
theorem random_words_spec (expf : ℚ → ℚ) (vocab : List Lexeme) (refillF : ℕ → List ℕ)
    (hexp : ∀ x, 0 < expf x)
    (hne : ∃ lex ∈ vocab, lex.prob ≠ 0)
    (hrefill : ∀ r, refillF r ≠ [] ∧ ∀ i ∈ refillF r, i < (rwWords vocab).length) :
    (rwWords vocab).length ≤ 10000 ∧
    (∀ w ∈ rwWords vocab, ∃ lex ∈ vocab, lex.prob ≠ 0 ∧ lex.text = w) ∧
    (rwProbStored expf vocab).sum = 1 ∧
    (∀ k, ∃ ws sf, rwRun refillF k (rwInit vocab) = some (ws, sf) ∧
      ∀ w ∈ ws, w ∈ rwWords vocab) := by
  refine ⟨?_, ?_, ?_, ?_⟩
  · simp only [rwWords, List.length_take]
    omega
  · intro w hw
    have hw2 : w ∈ (vocab.filter (fun lex => lex.prob ≠ 0)).map Lexeme.text :=
      List.take_subset _ _ hw
    obtain ⟨lex, hlex, htext⟩ := List.mem_map.mp hw2
    obtain ⟨hmem, hdec⟩ := List.mem_filter.mp hlex
    refine ⟨lex, hmem, ?_, htext⟩
    simpa using hdec
  · have hall : ∀ x ∈ (rwProbRaw vocab).map expf, 0 < x := by
      intro x hx
      obtain ⟨y, _, rfl⟩ := List.mem_map.mp hx
      exact hexp y
    have hene : (rwProbRaw vocab).map expf ≠ [] := by
      obtain ⟨lex, hmem, hp⟩ := hne
      have h1 : lex.prob ∈ (vocab.filter (fun l => l.prob ≠ 0)).map Lexeme.prob :=
        List.mem_map.mpr ⟨lex, List.mem_filter.mpr ⟨hmem, by simpa using hp⟩, rfl⟩
      have h2 : 0 < (rwProbRaw vocab).length := by
        simp only [rwProbRaw, List.length_take]
        have := List.length_pos.mpr (List.ne_nil_of_mem h1)
        omega
      simp only [ne_eq, List.map_eq_nil_iff]
      exact List.ne_nil_of_length_pos h2
    have hsum : 0 < ((rwProbRaw vocab).map expf).sum :=
      List.sum_pos _ hall hene
    have hmapdiv : ∀ (l : List ℚ) (cc : ℚ),
        (l.map (fun x => x / cc)).sum = l.sum / cc := by
      intro l cc
      induction l with
      | nil => simp
      | cons a t ih => simp [ih, add_div]
    rw [rwProbStored, hmapdiv, div_self (ne_of_gt hsum)]
  · intro k
    obtain ⟨ws, sf, h1, h2, _⟩ := rwRun_spec vocab refillF hrefill k (rwInit vocab)
      ⟨rfl, by intro i hi; exact absurd hi (List.not_mem_nil i)⟩
    exact ⟨ws, sf, h1, h2⟩

/-- Counterexample to C5 as frozen: for a vocabulary with no
nonzero-probability lexeme (here the empty one) the stored probability
list is empty and its sum is 0, not 1 — here with the entrywise
exponential instantiated at the strictly positive constant-one function,
consistent with what is assumed of it. -/
theorem random_words_sum_not_one_on_empty :
    (rwProbStored (fun _ => 1) []).sum = 0 ∧ (rwProbStored (fun _ => 1) []).sum ≠ 1 := by
  constructor <;> decide

/-- Witness for the amended C5 at a concrete one-word vocabulary with a
constant positive exponential and a constant refill batch. -/
theorem random_words_spec_w :
    (rwWords [⟨1, "a", 1, 0⟩]).length ≤ 10000 ∧
    (rwProbStored (fun _ => 1) [⟨1, "a", 1, 0⟩]).sum = 1 :=
  ⟨(random_words_spec (fun _ => 1) [⟨1, "a", 1, 0⟩] (fun _ => [0])
      (fun _ => by norm_num) ⟨⟨1, "a", 1, 0⟩, by simp, by norm_num⟩
      (fun r => ⟨by simp, fun i hi => by
        have h0 : i = 0 := by simpa using hi
        subst h0
        decide⟩)).1,
   (random_words_spec (fun _ => 1) [⟨1, "a", 1, 0⟩] (fun _ => [0])
      (fun _ => by norm_num) ⟨⟨1, "a", 1, 0⟩, by simp, by norm_num⟩
      (fun r => ⟨by simp, fun i hi => by
        have h0 : i = 0 := by simpa using hi
        subst h0
        decide⟩)).2.2.1⟩

/-- C7: the backward recorded by flatten and _flatten_add_lengths, applied
to a flat gradient of the same total length as the forward output,
reproduces exactly the original per-sequence shapes from the recorded
lengths; in particular unflattening the flattened batch itself gives the
batch back, and for pad width 0 the flattened length equals the sum of the
sequence lengths. -/
theorem flatten_unflatten_round_trip (pad : ℕ) (seqs : List (List ℤ)) (dX : List ℤ) :
    (dX.length = (flattenAddLengthsForward pad seqs).1.length →
      (flattenAddLengthsBackward pad seqs dX).map List.length = flattenLengths seqs) ∧
    flattenAddLengthsBackward pad seqs (flattenAddLengthsForward pad seqs).1 = seqs ∧
    (flattenLayerForward seqs).length = (flattenLengths seqs).sum := by
  refine ⟨?_, opsUnflatten_opsFlatten pad seqs, ?_⟩
  · intro h
    have hfl : (flattenAddLengthsForward pad seqs).1 = opsFlatten pad seqs := rfl
    rw [hfl, opsFlatten_length] at h
    apply opsUnflatten_shapes
    have hlen : (flattenLengths seqs).length = seqs.length := by
      simp [flattenLengths]
    rw [hlen]
    simp only [Nat.mul_add, Nat.mul_one] at h
    omega
  · have h := opsFlatten_length 0 seqs
    simpa [flattenLayerForward] using h

/-- Witness for C7 at a concrete batch of lengths 2 and 1 with pad width
1: a six-entry flat gradient splits back into the recorded shapes. -/
theorem flatten_unflatten_round_trip_w :
    (flattenAddLengthsBackward 1 [[1, 2], [3]] [0, 9, 8, 0, 7, 0]).map List.length =
      flattenLengths [[1, 2], [3]] :=
  (flatten_unflatten_round_trip 1 [[1, 2], [3]] [0, 9, 8, 0, 7, 0]).1 (by decide)

/-- C9: cosine returns 0 whenever either vector's L2 norm is exactly 0,
and otherwise the dot product divided by the product of the norms; in
particular the cosine of any vector with the zero vector is 0. -/
theorem cosine_zero_guard (n : ℕ) (vec1 vec2 : Fin n → ℝ) :
    (normL2 n vec1 = 0 ∨ normL2 n vec2 = 0 → cosine n vec1 vec2 = 0) ∧
    (normL2 n vec1 ≠ 0 → normL2 n vec2 ≠ 0 →
      cosine n vec1 vec2 =
        (∑ i, vec1 i * vec2 i) / (normL2 n vec1 * normL2 n vec2)) ∧
    cosine n vec1 (fun _ => 0) = 0 := by
  refine ⟨?_, ?_, ?_⟩
  · intro h
    simp only [cosine]
    rw [if_pos h]
  · intro h1 h2
    simp only [cosine]
    rw [if_neg (not_or.mpr ⟨h1, h2⟩)]
  · have hz : normL2 n (fun _ => (0 : ℝ)) = 0 := by
      simp [normL2]
    simp only [cosine]
    rw [if_pos (Or.inr hz)]

/-- Witness for C9: the cosine of the one-dimensional all-ones vector with
the zero vector is 0. -/
theorem cosine_zero_guard_w :
    cosine 1 (fun _ => 1) (fun _ => 0) = 0 :=
  (cosine_zero_guard 1 (fun _ => 1) (fun _ => 0)).1 (Or.inr (by simp [normL2]))

/-! ### Theorems for claims C3 and C4 -/

/-- C3: the backward function returned by masked_language_model multiplies
the incoming output gradient by (1 - mask) before delegating to the wrapped
model's backward function; the scaled gradient is zero at every token kept
uncorrupted (draw >= mask_prob) and unchanged at every corrupted token
(draw < mask_prob). -/
theorem mlm_backward_gates_gradient {α : Type} (N d : ℕ) (maskProb : ℚ)
    (draws : Fin N → ℚ) (backprop : (Fin N → Fin d → ℚ) → α)
    (dOut : Fin N → Fin d → ℚ) :
    mlmBackward N d backprop (applyMaskKeep N maskProb draws) dOut =
      backprop (mlmScaleGrad N d (applyMaskKeep N maskProb draws) dOut) ∧
    (∀ i j, maskProb ≤ draws i →
      mlmScaleGrad N d (applyMaskKeep N maskProb draws) dOut i j = 0) ∧
    (∀ i j, draws i < maskProb →
      mlmScaleGrad N d (applyMaskKeep N maskProb draws) dOut i j = dOut i j) := by
  refine ⟨rfl, ?_, ?_⟩
  · intro i j hi
    simp [mlmScaleGrad, applyMaskKeep, hi]
  · intro i j hi
    simp [mlmScaleGrad, applyMaskKeep, not_le.mpr hi]

/-- Witness for C3 at a concrete input: two tokens, draws 1/2 (kept) and
1/20 (corrupted) with mask_prob 3/20; the scaled gradient is 0 at the kept
token and passes through at the corrupted one. -/
theorem mlm_backward_gates_gradient_w :
    mlmScaleGrad 2 1 (applyMaskKeep 2 (3/20) (fun i => if i.val = 0 then 1/2 else 1/20))
      (fun _ _ => 7) 0 0 = 0 ∧
    mlmScaleGrad 2 1 (applyMaskKeep 2 (3/20) (fun i => if i.val = 0 then 1/2 else 1/20))
      (fun _ _ => 7) 1 0 = 7 :=
  ⟨(mlm_backward_gates_gradient 2 1 (3/20) (fun i => if i.val = 0 then 1/2 else 1/20)
      id (fun _ _ => 7)).2.1 0 0 (by norm_num),
   (mlm_backward_gates_gradient 2 1 (3/20) (fun i => if i.val = 0 then 1/2 else 1/20)
      id (fun _ _ => 7)).2.2 1 0 (by norm_num)⟩

/-- C4: _replace_word returns the literal marker when the roll is below
0.8, the sampled random word when the roll is in [0.8, 0.9), and the
original word otherwise — the 80/10/10 partition of the unit interval. -/
theorem replace_word_partition (roll : ℚ) (word sampled : String) :
    (roll < 8/10 → replaceWord roll word sampled = "[MASK]") ∧
    (8/10 ≤ roll → roll < 9/10 → replaceWord roll word sampled = sampled) ∧
    (9/10 ≤ roll → replaceWord roll word sampled = word) := by
  refine ⟨?_, ?_, ?_⟩
  · intro h
    simp [replaceWord, h]
  · intro h1 h2
    simp [replaceWord, not_lt.mpr h1, h2]
  · intro h
    have h1 : ¬ roll < 8/10 := not_lt.mpr (le_trans (by norm_num) h)
    simp [replaceWord, h1, not_lt.mpr h]

/-- Witness for C4 at concrete rolls 1/2, 17/20 and 19/20. -/
theorem replace_word_partition_w :
    replaceWord (1/2) "dog" "cat" = "[MASK]" ∧
    replaceWord (17/20) "dog" "cat" = "cat" ∧
    replaceWord (19/20) "dog" "cat" = "dog" :=
  ⟨(replace_word_partition (1/2) "dog" "cat").1 (by norm_num),
   (replace_word_partition (17/20) "dog" "cat").2.1 (by norm_num) (by norm_num),
   (replace_word_partition (19/20) "dog" "cat").2.2 (by norm_num)⟩

end SpacyML
